import Mathlib

/-!
Shallow embedding of the tight-binding `Model` class from
`src/z2pack/em/tb/_tb_model.py` of the Z2Pack repository.

Real scalars (on-site energies, positions, k-points) are modelled by `ℝ`,
complex hopping amplitudes by `ℂ`, integer lattice vectors `G` by
`ℤ × ℤ × ℤ`.  The numpy matrices produced by `hamilton` are modelled as
total functions `ℕ → ℕ → ℂ`; entries outside the intended `N × N` block
are `0`.  Fallible operations (raised ValueErrors, numpy index errors)
are modelled with `Except`.  Negative orbital indices (which numpy would
wrap around) are outside the model: indices are `ℕ`, and an index `≥ N`
is the modelled IndexError.
-/

namespace Z2Pack

/-- Integer lattice vector `G`, modelling the numpy integer 3-vector. -/
abbrev G3 : Type := ℤ × ℤ × ℤ

/-- Real 3-vector (orbital positions, k-points). -/
abbrev Vec3R : Type := ℝ × ℝ × ℝ

/-- Complex matrix, total on `ℕ × ℕ`. -/
abbrev CMat : Type := ℕ → ℕ → ℂ

/-- Componentwise negation of a lattice vector, modelling `-np.array(G)`. -/
def negG (a : G3) : G3 := (-a.1, -a.2.1, -a.2.2)

/-- Componentwise sum of lattice vectors. -/
def addG (a b : G3) : G3 := (a.1 + b.1, a.2.1 + b.2.1, a.2.2 + b.2.2)

/-- Componentwise difference of lattice vectors. -/
def subG (a b : G3) : G3 := (a.1 - b.1, a.2.1 - b.2.1, a.2.2 - b.2.2)

/-- One hopping term `[i0, i1, G, t]`. -/
structure Hop where
  i0 : ℕ
  i1 : ℕ
  G : G3
  t : ℂ

/-- Real 3x3 matrix with named entries `a(row)(column)`, used for the
unit cell and for the argument of `change_uc`. -/
structure Mat3 where
  a11 : ℝ
  a12 : ℝ
  a13 : ℝ
  a21 : ℝ
  a22 : ℝ
  a23 : ℝ
  a31 : ℝ
  a32 : ℝ
  a33 : ℝ

/-- Determinant of a 3x3 matrix (cofactor expansion along the first row),
modelling `scipy.linalg.det`. -/
def det3 (u : Mat3) : ℝ :=
  u.a11 * (u.a22 * u.a33 - u.a23 * u.a32)
    - u.a12 * (u.a21 * u.a33 - u.a23 * u.a31)
    + u.a13 * (u.a21 * u.a32 - u.a22 * u.a31)

/-- Matrix product of two 3x3 matrices, modelling `np.dot(uc_old, uc)`. -/
def mul3 (u v : Mat3) : Mat3 :=
  ⟨u.a11 * v.a11 + u.a12 * v.a21 + u.a13 * v.a31,
   u.a11 * v.a12 + u.a12 * v.a22 + u.a13 * v.a32,
   u.a11 * v.a13 + u.a12 * v.a23 + u.a13 * v.a33,
   u.a21 * v.a11 + u.a22 * v.a21 + u.a23 * v.a31,
   u.a21 * v.a12 + u.a22 * v.a22 + u.a23 * v.a32,
   u.a21 * v.a13 + u.a22 * v.a23 + u.a23 * v.a33,
   u.a31 * v.a11 + u.a32 * v.a21 + u.a33 * v.a31,
   u.a31 * v.a12 + u.a32 * v.a22 + u.a33 * v.a32,
   u.a31 * v.a13 + u.a32 * v.a23 + u.a33 * v.a33⟩

/-- Solution of the linear system `u * x = p`, by the Cramer rule;
this models `scipy.linalg.solve(uc, p)`, which is only reached by
`change_uc` after the determinant has been checked to be 1 (so the
matrix is invertible). -/
noncomputable def solve3 (u : Mat3) (p : Vec3R) : Vec3R :=
  (det3 ⟨p.1, u.a12, u.a13, p.2.1, u.a22, u.a23, p.2.2, u.a32, u.a33⟩ / det3 u,
   det3 ⟨u.a11, p.1, u.a13, u.a21, p.2.1, u.a23, u.a31, p.2.2, u.a33⟩ / det3 u,
   det3 ⟨u.a11, u.a12, p.1, u.a21, u.a22, p.2.1, u.a31, u.a32, p.2.2⟩ / det3 u)

/-- State of a constructed `Model`: the fields `_on_site`, `_pos`,
`_hop`, `_occ`, `_uc`.  The mutable cache (`_unchanged`, `_G_list`,
`_hamilton_parts`, `_hamilton_diag`) is modelled separately by
`TBState` below. -/
structure Model where
  on_site : List ℝ
  pos : List Vec3R
  hop : List Hop
  occ : ℤ
  uc : Option Mat3

/-- Error raised by the constructor: the `pos` length check. -/
inductive ConfigErr where
  | posLength
deriving DecidableEq

/-- Hermitian-conjugate partner appended by the constructor when
`add_cc` is true: `[i1, i0, -np.array(G), t.conjugate()]`. -/
def ccHop (h : Hop) : Hop := ⟨h.i1, h.i0, negG h.G, (starRingEnd ℂ) h.t⟩

/-- The constructor `Model.__init__(on_site, hop, pos, occ, add_cc, uc)`:
defaults `pos` to the origin for every orbital, checks the `pos` length
otherwise, appends the Hermitian conjugate of every supplied hopping
term when `add_cc` is true, and defaults `occ` to `int(len(on_site)/2)`. -/
def mkModel (on_site : List ℝ) (hop : List Hop) (pos : Option (List Vec3R))
    (occ : Option ℤ) (add_cc : Bool) (uc : Option Mat3) : Except ConfigErr Model :=
  match pos with
  | none =>
      .ok ⟨on_site, List.replicate on_site.length ((0 : ℝ), (0 : ℝ), (0 : ℝ)),
           hop ++ (if add_cc then hop.map ccHop else []),
           (occ.getD ((on_site.length / 2 : ℕ) : ℤ)), uc⟩
  | some p =>
      if p.length = on_site.length then
        .ok ⟨on_site, p, hop ++ (if add_cc then hop.map ccHop else []),
             (occ.getD ((on_site.length / 2 : ℕ) : ℤ)), uc⟩
      else .error .posLength

/-- The dot product `np.dot(G, k)`. -/
def gdot (G : G3) (k : Vec3R) : ℝ :=
  (G.1 : ℝ) * k.1 + (G.2.1 : ℝ) * k.2.1 + (G.2.2 : ℝ) * k.2.2

/-- Bloch phase factor `np.exp(2j * np.pi * np.dot(G, k))`. -/
noncomputable def phase (G : G3) (k : Vec3R) : ℂ :=
  Complex.exp (2 * (Real.pi : ℂ) * Complex.I * ((gdot G k : ℝ) : ℂ))

/-- The `_hamilton_diag` matrix `np.diag(on_site)`. -/
def diagOf (os : List ℝ) : CMat :=
  fun i j => if i = j then ((os.getD i 0 : ℝ) : ℂ) else 0

/-- The `_G_list` field: the distinct `G` vectors of the hopping list
(`list(set(tuple(G) for ...))`; the set has no intrinsic order, modelled
here by `List.dedup`). -/
def Glist (hop : List Hop) : List G3 := (hop.map Hop.G).dedup

/-- Errors raised during `_precompute`: the `G not found in G_list`
ValueError, and the numpy IndexError on an out-of-range orbital index in
`_hamilton_parts[i][i0, i1] += t`. -/
inductive PrecErr where
  | gNotFound
  | indexErr
deriving DecidableEq

/-- Adding `t` at entry `(i0, i1)` of a matrix. -/
def updEntry (M : CMat) (i0 i1 : ℕ) (t : ℂ) : CMat :=
  fun a b => if a = i0 ∧ b = i1 then M a b + t else M a b

/-- One iteration of the `_precompute` accumulation loop, acting on the
`_hamilton_parts` matrices.  The parts are keyed by their `G` value
rather than by their position in `_G_list`; since `_G_list` has no
duplicate entries and the source locates the part by scanning `_G_list`
for the unique index whose entry equals `G` exactly, the two
representations agree entrywise. -/
def updParts (f : G3 → CMat) (h : Hop) : G3 → CMat :=
  fun G => if G = h.G then updEntry (f G) h.i0 h.i1 h.t else f G

/-- The all-zero family of part matrices (`np.zeros_like`). -/
def emptyParts : G3 → CMat := fun _ _ _ => 0

/-- The `_precompute` accumulation loop over the hopping list: for each
term, the source scans `_G_list` for the index of its `G` (raising the
`G not found in G_list` ValueError when the scan fails) and then adds
`t` at entry `(i0, i1)` of that part (raising IndexError when an index
is out of range). -/
def foldParts (N : ℕ) (Gl : List G3) (f : G3 → CMat) :
    List Hop → Except PrecErr (G3 → CMat)
  | [] => .ok f
  | h :: hs =>
      if h.G ∈ Gl then
        if h.i0 < N ∧ h.i1 < N then foldParts N Gl (updParts f h) hs
        else .error .indexErr
      else .error .gNotFound

/-- `Model._precompute`, returning the accumulated `_hamilton_parts`. -/
def precomputeCore (os : List ℝ) (hop : List Hop) : Except PrecErr (G3 → CMat) :=
  foldParts os.length (Glist hop) emptyParts hop

/-- `Model.hamilton(k)`, on explicit `on_site` and `hop` data: rebuild
the decomposition and return
`_hamilton_diag + sum over _G_list of _hamilton_parts[i] * exp(2j pi G.k)`. -/
noncomputable def hamiltonCore (os : List ℝ) (hop : List Hop) (k : Vec3R) :
    Except PrecErr CMat :=
  (precomputeCore os hop).map fun parts =>
    fun i j => diagOf os i j + ((Glist hop).map fun G => parts G i j * phase G k).sum

/-- `Model.hamilton(k)` (the cache-free value; the caching behaviour is
modelled by `hamiltonS` below). -/
noncomputable def hamilton (m : Model) (k : Vec3R) : Except PrecErr CMat :=
  hamiltonCore m.on_site m.hop k

/-! ### The mutable cache (`_unchanged` and `__setattr__`) -/

/-- The mutable state of one `Model` object: the data fields together
with `_unchanged` and the cached `_G_list` / `_hamilton_parts` /
`_hamilton_diag`.  Before the first call of `_precompute` the cache
attributes do not exist in Python; they are modelled by dummy initial
values, which are unobservable because `_unchanged` starts out `False`
and every read of the cache is guarded by `_unchanged`. -/
structure TBState where
  on_site : List ℝ
  hop : List Hop
  unchanged : Bool
  cGl : List G3
  cParts : G3 → CMat
  cDiag : CMat

/-- The state of a freshly constructed object: `_unchanged = False`
(set at the end of `__init__`), cache attributes not yet present. -/
def initState (m : Model) : TBState :=
  ⟨m.on_site, m.hop, false, [], emptyParts, fun _ _ => 0⟩

/-- `Model._precompute` as a state transition: fills `_hamilton_diag`,
`_G_list`, `_hamilton_parts`, then sets `_unchanged = True`. -/
def precomputeS (s : TBState) : Except PrecErr TBState :=
  (precomputeCore s.on_site s.hop).map fun parts =>
    { s with cGl := Glist s.hop, cParts := parts, cDiag := diagOf s.on_site,
             unchanged := true }

/-- `Model.hamilton(k)` with the cache: `_precompute` runs only when
`_unchanged` is false, and the matrix is assembled from the cached
pieces. -/
noncomputable def hamiltonS (s : TBState) (k : Vec3R) : Except PrecErr (CMat × TBState) :=
  match (if s.unchanged then .ok s else precomputeS s : Except PrecErr TBState) with
  | .error e => .error e
  | .ok s2 =>
      .ok (fun i j => s2.cDiag i j + (s2.cGl.map fun G => s2.cParts G i j * phase G k).sum,
           s2)

/-- `Model.add_hop(hop)`: `self._hop.extend(hop)`.  This mutates the
stored list in place; it is an attribute read followed by a method
call, not an attribute assignment, so `__setattr__` does not run and
`_unchanged` keeps its previous value. -/
def addHopS (s : TBState) (new : List Hop) : TBState :=
  { s with hop := s.hop ++ new }

/-! ### Derived models -/

/-- Passivation callback of `supercell`: edge indicator pairs
`(bottom, top)` for the three axes, and the orbital index.  The Python
callback returns a length-`N` list of on-site energies; it is modelled
as a total function of the orbital index (its documented contract). -/
abbrev Pass : Type := (Bool × Bool) → (Bool × Bool) → (Bool × Bool) → ℕ → ℝ

/-- Edge indicators of `_edge_detect_pos` along one axis:
`(pos == 0, pos == dim - 1)`. -/
def edgePair (p d : ℕ) : Bool × Bool := (p == 0, p == d - 1)

/-- Passivation on-site contribution for orbital `o` of the sub-unit
cell `c` (`0` when no passivation function is given). -/
def passTerm (pass : Option Pass) (c dim : ℕ × ℕ × ℕ) (o : ℕ) : ℝ :=
  match pass with
  | none => 0
  | some f => f (edgePair c.1 dim.1) (edgePair c.2.1 dim.2.1) (edgePair c.2.2 dim.2.2) o

/-- `_pos_to_idx(pos, dim) = ((pos[0]*dim[1]) + pos[1])*dim[2] + pos[2]`.
The bounds guard of the source cannot fire for the arguments `supercell`
passes (loop indices below `dim` and values wrapped by `% dim`). -/
def posToIdx (p dim : ℕ × ℕ × ℕ) : ℕ :=
  (p.1 * dim.2.1 + p.2.1) * dim.2.2 + p.2.2

/-- The sub-unit-cell coordinates in the loop order of the source:
`i` (x) slowest, `k` (z) fastest. -/
def cells (dim : ℕ × ℕ × ℕ) : List (ℕ × ℕ × ℕ) :=
  (List.range dim.1).flatMap fun i =>
    (List.range dim.2.1).flatMap fun j =>
      (List.range dim.2.2).map fun k => (i, j, k)

/-- The supercell hopping terms generated from sub-unit cell `c`: for
each original term, the unwrapped destination cell is `c + G`; the term
is cut when some axis is non-periodic and the destination lies outside
`[0, dim)` along it; otherwise the destination is wrapped by the floored
`% dim` and the new `G` is `np.array(full_uc1_pos / dim, dtype=int)`,
i.e. the true quotient truncated toward zero (`Int.tdiv`). -/
def scHopsAt (m : Model) (dim : ℕ × ℕ × ℕ) (periodic : Bool × Bool × Bool)
    (c : ℕ × ℕ × ℕ) : List Hop :=
  m.hop.filterMap fun h =>
    let N := m.on_site.length
    let f1 : ℤ := (c.1 : ℤ) + h.G.1
    let f2 : ℤ := (c.2.1 : ℤ) + h.G.2.1
    let f3 : ℤ := (c.2.2 : ℤ) + h.G.2.2
    let out1 : Bool := decide (f1 < 0) || decide ((dim.1 : ℤ) ≤ f1)
    let out2 : Bool := decide (f2 < 0) || decide ((dim.2.1 : ℤ) ≤ f2)
    let out3 : Bool := decide (f3 < 0) || decide ((dim.2.2 : ℤ) ≤ f3)
    if (!periodic.1 && out1) || (!periodic.2.1 && out2) || (!periodic.2.2 && out3) then
      none
    else
      some ⟨posToIdx c dim * N + h.i0,
            posToIdx ((f1.emod dim.1).toNat, (f2.emod dim.2.1).toNat,
                      (f3.emod dim.2.2).toNat) dim * N + h.i1,
            (f1.tdiv dim.1, f2.tdiv dim.2.1, f3.tdiv dim.2.2),
            h.t⟩

/-- Unit cell of the supercell: `self._uc * dim`, numpy broadcasting,
so column `j` of the matrix is scaled by `dim[j]`. -/
def scaleUc (u : Mat3) (dim : ℕ × ℕ × ℕ) : Mat3 :=
  ⟨u.a11 * dim.1, u.a12 * dim.2.1, u.a13 * dim.2.2,
   u.a21 * dim.1, u.a22 * dim.2.1, u.a23 * dim.2.2,
   u.a31 * dim.1, u.a32 * dim.2.1, u.a33 * dim.2.2⟩

/-- `Model.supercell(dim, periodic, passivation)`.  The resulting model
is handed to the constructor with `add_cc=False` and a `pos` list whose
length necessarily matches the new `on_site`, so the construction is the
plain record below. -/
noncomputable def supercell (m : Model) (dim : ℕ × ℕ × ℕ)
    (periodic : Bool × Bool × Bool) (pass : Option Pass) : Model :=
  { on_site := (cells dim).flatMap fun c =>
      m.on_site.mapIdx fun o e => e + passTerm pass c dim o
  , pos := (cells dim).flatMap fun c => m.pos.map fun p =>
      ((c.1 : ℝ) / (dim.1 : ℝ) + p.1 / (dim.1 : ℝ),
       (c.2.1 : ℝ) / (dim.2.1 : ℝ) + p.2.1 / (dim.2.1 : ℝ),
       (c.2.2 : ℝ) / (dim.2.2 : ℝ) + p.2.2 / (dim.2.2 : ℝ))
  , hop := (cells dim).flatMap (scHopsAt m dim periodic)
  , occ := ((dim.1 : ℤ) + (dim.2.1 : ℤ) + (dim.2.2 : ℤ)) * m.occ
  , uc := m.uc.map fun u => scaleUc u dim }

/-- `Model.trs()`: direct sum of the model and its time-reversed copy.
Positions and on-site energies are concatenated with themselves, the
occupation is doubled, and every original hopping term `(i0, i1, G, t)`
contributes the mirrored term `(i1 + N, i0 + N, -G, t)`; the result is
built with `add_cc=False`. -/
def trs (m : Model) : Model :=
  { on_site := m.on_site ++ m.on_site
  , pos := m.pos ++ m.pos
  , hop := m.hop ++ m.hop.map fun h =>
      ⟨h.i1 + m.on_site.length, h.i0 + m.on_site.length, negG h.G, h.t⟩
  , occ := m.occ * 2
  , uc := m.uc }

/-- Componentwise floor of a position, `np.array(np.floor(p), dtype=int)`. -/
noncomputable def floorV (p : Vec3R) : G3 := (⌊p.1⌋, ⌊p.2.1⌋, ⌊p.2.2⌋)

/-- Componentwise fractional part of a position, `p % 1`. -/
noncomputable def fractV (p : Vec3R) : Vec3R :=
  (Int.fract p.1, Int.fract p.2.1, Int.fract p.2.2)

/-- `Model.change_uc(uc)`: raises a ValueError reporting the actual
determinant when `la.det(uc) != 1` (the error payload here is that
reported determinant); otherwise solves `uc * p2 = p` for every orbital
position, stores the fractional parts, and shifts every hopping term by
`pos_offset[i1] - pos_offset[i0]`.  The source indexes the offset list
with the raw orbital indices (an IndexError for an out-of-range index);
the embedding totalises this with `getD`, and the theorems about
`change_uc` assume in-range indices. -/
noncomputable def change_uc (m : Model) (uc : Mat3) : Except ℝ Model :=
  if det3 uc ≠ 1 then .error (det3 uc)
  else
    let fullNewPos := m.pos.map fun p => solve3 uc p
    let posOffset : List G3 := fullNewPos.map floorV
    .ok { on_site := m.on_site
        , pos := fullNewPos.map fractV
        , hop := m.hop.map fun h =>
            ⟨h.i0, h.i1,
             addG h.G (subG (posOffset.getD h.i1 (0, 0, 0)) (posOffset.getD h.i0 (0, 0, 0))),
             h.t⟩
        , occ := m.occ
        , uc := m.uc.map fun u => mul3 u uc }

/-! ### Specification-side definitions and proof-layer definitions -/

/-- Contribution of one hopping term to entry `(i, j)` of a matrix. -/
def hopEntry (h : Hop) (i j : ℕ) : ℂ := if h.i0 = i ∧ h.i1 = j then h.t else 0

/-- The pure accumulation underlying `foldParts` (the value it returns
when no error is raised). -/
def applyHops (f : G3 → CMat) : List Hop → (G3 → CMat)
  | [] => f
  | h :: hs => applyHops (updParts f h) hs

/-- Definition following the words of the spec (section 4.3, step 1):
for each distinct `G`, the matrix `M_G` with `M_G[i0,i1] += t` summed
over all hopping terms whose `G` equals that vector exactly. -/
def specMG (hop : List Hop) (G : G3) : CMat :=
  fun i j => (hop.map fun h => if h.G = G then hopEntry h i j else 0).sum

/-- Definition following the words of the spec (section 4.3, step 2):
`D + sum over the distinct G of M_G * exp(2 pi i G.k)`. -/
noncomputable def specHamilton (m : Model) (k : Vec3R) : CMat :=
  fun i j => diagOf m.on_site i j
    + ((Glist m.hop).map fun G => specMG m.hop G i j * phase G k).sum

/-! ### Concrete instances used in spot checks and counterexamples -/

/-- The zero k-point. -/
def kZero : Vec3R := ((0 : ℝ), (0 : ℝ), (0 : ℝ))

/-- The 3x3 identity matrix. -/
def idMat3 : Mat3 := ⟨1, 0, 0, 0, 1, 0, 0, 0, 1⟩

/-- A two-orbital model with a single hopping term. -/
def mEx : Model :=
  ⟨[0, 0], [((0 : ℝ), 0, 0), ((0 : ℝ), 0, 0)], [⟨0, 1, (0, 0, 0), 1⟩], 1, none⟩

/-- A single imaginary hopping term, input of a constructor call. -/
def hpI : List Hop := [⟨0, 1, (0, 0, 0), Complex.I⟩]

/-- The model built by `mkModel [0,0] hpI none none true none`. -/
def mI : Model :=
  ⟨[0, 0], List.replicate 2 ((0 : ℝ), (0 : ℝ), (0 : ℝ)), hpI ++ hpI.map ccHop, 1, none⟩

/-- Position lists of equal length differing in the first entry. -/
def pA : List Vec3R := [((0 : ℝ), 0, 0), ((0 : ℝ), 0, 0)]

/-- Second position list for the position-independence check. -/
def pB : List Vec3R := [((1 : ℝ), 0, 0), ((0 : ℝ), 0, 0)]

/-- The model built by `mkModel [0,0] hpI (some pA) none true none`. -/
def mA : Model := ⟨[0, 0], pA, hpI ++ hpI.map ccHop, 1, none⟩

/-- The model built by `mkModel [0,0] hpI (some pB) none true none`. -/
def mB : Model := ⟨[0, 0], pB, hpI ++ hpI.map ccHop, 1, none⟩

/-- One orbital, one hopping with `G = (-1, 0, 0)`: the failing input of
the supercell quotient/wrap analysis. -/
def mC2 : Model := ⟨[0], [((0 : ℝ), 0, 0)], [⟨0, 0, (-1, 0, 0), 1⟩], 0, none⟩

/-- A model whose second orbital position `3/2` lies outside `[0, 1)`:
the failing input of the `change_uc`-identity analysis. -/
noncomputable def mC8 : Model :=
  ⟨[0, 0], [((0 : ℝ), 0, 0), ((3 / 2 : ℝ), 0, 0)], [⟨0, 1, (0, 0, 0), 1⟩], 1, none⟩

/-- What `change_uc mC8 idMat3` returns: position wrapped to `1/2`, the
hopping term shifted to `G = (1, 0, 0)`. -/
noncomputable def mC8b : Model :=
  ⟨[0, 0], [((0 : ℝ), 0, 0), ((1 / 2 : ℝ), 0, 0)], [⟨0, 1, (1, 0, 0), 1⟩], 1, none⟩

/-- The k-point `(1/2, 0, 0)`. -/
noncomputable def kHalf : Vec3R := ((1 / 2 : ℝ), (0 : ℝ), (0 : ℝ))

/-- One orbital, empty hopping list: the starting model of the stale
cache analysis. -/
def mC1 : Model := ⟨[0], [((0 : ℝ), 0, 0)], [], 0, none⟩

/-- The hopping term added by `add_hop` after the first `hamilton` call. -/
def hopC1 : Hop := ⟨0, 0, (0, 0, 0), 1⟩

/-- The object state after `hamilton` has been evaluated once on `mC1`:
cache filled from the empty hopping list, `_unchanged = True`. -/
def sAF : TBState := ⟨[0], [], true, [], emptyParts, diagOf [0]⟩

/-! ### Helper lemmas about list sums -/

lemma list_sum_map_add {α : Type} (l : List α) (f g : α → ℂ) :
    (l.map fun b => f b + g b).sum = (l.map f).sum + (l.map g).sum := by
  induction l with
  | nil => simp
  | cons a t ih => simp only [List.map_cons, List.sum_cons, ih]; ring

lemma list_sum_mul {α : Type} (l : List α) (f : α → ℂ) (c : ℂ) :
    (l.map f).sum * c = (l.map fun x => f x * c).sum := by
  induction l with
  | nil => simp
  | cons a t ih => simp only [List.map_cons, List.sum_cons, add_mul, ih]

lemma list_sum_swap {α β : Type} (l1 : List α) (l2 : List β) (f : α → β → ℂ) :
    (l1.map fun a => (l2.map fun b => f a b).sum).sum
      = (l2.map fun b => (l1.map fun a => f a b).sum).sum := by
  induction l1 with
  | nil => simp
  | cons a t ih =>
      simp only [List.map_cons, List.sum_cons, ih, ← list_sum_map_add]

lemma list_sum_pick (l : List G3) (hnd : l.Nodup) (a : G3) (ha : a ∈ l)
    (c : G3 → ℂ) :
    (l.map fun G => if a = G then c G else 0).sum = c a := by
  induction l with
  | nil => cases ha
  | cons b t ih =>
      rw [List.nodup_cons] at hnd
      rcases List.mem_cons.mp ha with hab | hat
      · subst hab
        simp only [List.map_cons, List.sum_cons]
        have hz : ∀ x ∈ t.map fun G => if a = G then c G else 0, x = 0 := by
          intro x hx
          rcases List.mem_map.mp hx with ⟨G, hG, hGx⟩
          have : a ≠ G := fun hh => hnd.1 (hh ▸ hG)
          rw [← hGx, if_neg this]
        rw [if_pos (by trivial), List.sum_eq_zero hz, add_zero]
      · have hab : a ≠ b := fun hh => hnd.1 (hh ▸ hat)
        simp only [List.map_cons, List.sum_cons, if_neg hab, zero_add]
        exact ih hnd.2 hat

/-! ### Characterisation of the precomputation -/

lemma updParts_apply (f : G3 → CMat) (h : Hop) (G : G3) (i j : ℕ) :
    updParts f h G i j
      = f G i j + if h.G = G then hopEntry h i j else 0 := by
  unfold updParts updEntry hopEntry
  by_cases hG : G = h.G
  · rw [if_pos hG, if_pos hG.symm]
    by_cases hij : i = h.i0 ∧ j = h.i1
    · rw [if_pos hij, if_pos ⟨hij.1.symm, hij.2.symm⟩]
    · rw [if_neg hij, if_neg fun hh => hij ⟨hh.1.symm, hh.2.symm⟩, add_zero]
  · rw [if_neg hG, if_neg fun hh => hG hh.symm, add_zero]

lemma applyHops_apply (hs : List Hop) :
    ∀ (f : G3 → CMat) (G : G3) (i j : ℕ),
      applyHops f hs G i j
        = f G i j + ((hs.map fun h => if h.G = G then hopEntry h i j else 0)).sum := by
  induction hs with
  | nil => intro f G i j; simp [applyHops]
  | cons h t ih =>
      intro f G i j
      show applyHops (updParts f h) t G i j = _
      rw [ih (updParts f h) G i j, updParts_apply]
      simp only [List.map_cons, List.sum_cons]
      ring

lemma foldParts_eq_ok (hs : List Hop) :
    ∀ (N : ℕ) (Gl : List G3) (f : G3 → CMat),
      (∀ h ∈ hs, h.G ∈ Gl) → (∀ h ∈ hs, h.i0 < N ∧ h.i1 < N) →
      foldParts N Gl f hs = .ok (applyHops f hs) := by
  induction hs with
  | nil => intro N Gl f _ _; rfl
  | cons h t ih =>
      intro N Gl f hmem hrg
      show (if h.G ∈ Gl then
              if h.i0 < N ∧ h.i1 < N then foldParts N Gl (updParts f h) t
              else .error .indexErr
            else .error .gNotFound) = _
      rw [if_pos (hmem h (List.mem_cons_self h t)), if_pos (hrg h (List.mem_cons_self h t))]
      exact ih N Gl (updParts f h)
        (fun x hx => hmem x (List.mem_cons_of_mem h hx))
        (fun x hx => hrg x (List.mem_cons_of_mem h hx))

lemma precomputeCore_eq_ok (os : List ℝ) (hop : List Hop)
    (hrg : ∀ h ∈ hop, h.i0 < os.length ∧ h.i1 < os.length) :
    precomputeCore os hop = .ok (applyHops emptyParts hop) :=
  foldParts_eq_ok hop os.length (Glist hop) emptyParts
    (fun h hh => List.mem_dedup.mpr (List.mem_map_of_mem Hop.G hh)) hrg

lemma hamilton_ok (m : Model) (k : Vec3R)
    (hrg : ∀ h ∈ m.hop, h.i0 < m.on_site.length ∧ h.i1 < m.on_site.length) :
    hamilton m k = .ok (specHamilton m k) := by
  have hfix : ∀ (G : G3) (i j : ℕ),
      applyHops emptyParts m.hop G i j = specMG m.hop G i j := by
    intro G i j
    rw [applyHops_apply]
    unfold emptyParts specMG
    rw [zero_add]
  unfold hamilton hamiltonCore
  rw [precomputeCore_eq_ok m.on_site m.hop hrg]
  simp only [Except.map]
  congr 1
  funext i j
  unfold specHamilton
  simp only [hfix]

lemma glist_sum_flat (hop : List Hop) (k : Vec3R) (i j : ℕ) :
    ((Glist hop).map fun G => specMG hop G i j * phase G k).sum
      = (hop.map fun h => hopEntry h i j * phase h.G k).sum := by
  have step1 : ((Glist hop).map fun G => specMG hop G i j * phase G k).sum
      = ((Glist hop).map fun G =>
          (hop.map fun h => (if h.G = G then hopEntry h i j else 0) * phase G k).sum).sum := by
    exact congrArg List.sum (List.map_congr_left fun G _ => list_sum_mul hop _ (phase G k))
  rw [step1, list_sum_swap]
  refine congrArg List.sum (List.map_congr_left fun h hh => ?_)
  have hmem : h.G ∈ Glist hop := List.mem_dedup.mpr (List.mem_map_of_mem Hop.G hh)
  have hnd : (Glist hop).Nodup := List.nodup_dedup _
  have pick := list_sum_pick (Glist hop) hnd h.G hmem
    (fun G => hopEntry h i j * phase G k)
  rw [← pick]
  refine congrArg List.sum (List.map_congr_left fun G _ => ?_)
  rw [ite_mul, zero_mul]

lemma hamilton_flat (m : Model) (k : Vec3R)
    (hrg : ∀ h ∈ m.hop, h.i0 < m.on_site.length ∧ h.i1 < m.on_site.length) :
    hamilton m k = .ok (fun i j => diagOf m.on_site i j
      + (m.hop.map fun h => hopEntry h i j * phase h.G k).sum) := by
  rw [hamilton_ok m k hrg]
  congr 1
  funext i j
  unfold specHamilton
  rw [glist_sum_flat]

/-! ### Hermiticity helpers -/

lemma negG_negG (G : G3) : negG (negG G) = G := by
  unfold negG
  simp

lemma conj_phase (G : G3) (k : Vec3R) :
    (starRingEnd ℂ) (phase G k) = phase (negG G) k := by
  unfold phase
  rw [← Complex.exp_conj]
  have hg : gdot (negG G) k = -gdot G k := by
    unfold gdot negG
    push_cast
    ring
  rw [hg]
  simp only [map_mul, Complex.conj_I, Complex.conj_ofReal, map_ofNat]
  push_cast
  ring_nf

lemma conj_diag (os : List ℝ) (i j : ℕ) :
    (starRingEnd ℂ) (diagOf os j i) = diagOf os i j := by
  unfold diagOf
  by_cases h : j = i
  · subst h
    simp [Complex.conj_ofReal]
  · rw [if_neg h, if_neg fun hh => h hh.symm]
    simp

lemma conj_hop_term (h : Hop) (k : Vec3R) (i j : ℕ) :
    (starRingEnd ℂ) (hopEntry h j i * phase h.G k)
      = hopEntry (ccHop h) i j * phase (ccHop h).G k := by
  unfold hopEntry ccHop
  by_cases hc : h.i0 = j ∧ h.i1 = i
  · rw [if_pos hc, if_pos ⟨hc.2, hc.1⟩, map_mul, conj_phase]
  · rw [if_neg hc, if_neg fun hh => hc ⟨hh.2, hh.1⟩]
    simp

lemma conj_cc_term (h : Hop) (k : Vec3R) (i j : ℕ) :
    (starRingEnd ℂ) (hopEntry (ccHop h) j i * phase (ccHop h).G k)
      = hopEntry h i j * phase h.G k := by
  unfold hopEntry ccHop
  by_cases hc : h.i0 = i ∧ h.i1 = j
  · rw [if_pos ⟨hc.2, hc.1⟩, if_pos hc, map_mul, conj_phase]
    show (starRingEnd ℂ) ((starRingEnd ℂ) h.t) * phase (negG (negG h.G)) k = _
    rw [Complex.conj_conj, negG_negG]
  · rw [if_neg fun hh => hc ⟨hh.2, hh.1⟩, if_neg hc]
    simp

lemma flat_hermitian (hp : List Hop) (k : Vec3R) (i j : ℕ) :
    (starRingEnd ℂ) (((hp ++ hp.map ccHop).map fun h => hopEntry h j i * phase h.G k).sum)
      = ((hp ++ hp.map ccHop).map fun h => hopEntry h i j * phase h.G k).sum := by
  have hsplit : ∀ F : Hop → ℂ,
      ((hp ++ hp.map ccHop).map F).sum
        = (hp.map F).sum + (hp.map (F ∘ ccHop)).sum := by
    intro F
    rw [List.map_append, List.sum_append, List.map_map]
  have e1 : (starRingEnd ℂ) ((hp.map fun h => hopEntry h j i * phase h.G k).sum)
      = (hp.map ((fun h => hopEntry h i j * phase h.G k) ∘ ccHop)).sum := by
    rw [map_list_sum, List.map_map]
    exact congrArg List.sum (List.map_congr_left fun h _ => conj_hop_term h k i j)
  have e2 : (starRingEnd ℂ)
        ((hp.map ((fun h => hopEntry h j i * phase h.G k) ∘ ccHop)).sum)
      = (hp.map fun h => hopEntry h i j * phase h.G k).sum := by
    rw [map_list_sum, List.map_map]
    exact congrArg List.sum (List.map_congr_left fun h _ => conj_cc_term h k i j)
  rw [hsplit, hsplit, map_add, e1, e2, add_comm]

/-! ### Constructor facts -/

lemma mkModel_fields (os : List ℝ) (hp : List Hop) (pos : Option (List Vec3R))
    (occ : Option ℤ) (cc : Bool) (uc : Option Mat3) (m : Model)
    (hmk : mkModel os hp pos occ cc uc = .ok m) :
    m.on_site = os ∧ m.hop = hp ++ (if cc then hp.map ccHop else []) := by
  cases pos with
  | none =>
      unfold mkModel at hmk
      injection hmk with hmk
      rw [← hmk]
      exact ⟨rfl, rfl⟩
  | some p =>
      simp only [mkModel] at hmk
      by_cases hl : p.length = os.length
      · rw [if_pos hl] at hmk
        injection hmk with hmk
        rw [← hmk]
        exact ⟨rfl, rfl⟩
      · rw [if_neg hl] at hmk
        cases hmk

/-! ### Claim theorems -/

/-- C3: for every model with in-range hopping indices and every real
3-vector k, `hamilton(k)` equals `D + sum over the distinct G vectors of
M_G * exp(2 pi i G.k)`, where `D` is the diagonal of the on-site
energies and `M_G` sums `t` into entry `(i0, i1)` over all stored terms
whose `G` equals that vector exactly. -/
theorem hamilton_eq_bloch_decomposition (m : Model) (k : Vec3R)
    (hrg : ∀ h ∈ m.hop, h.i0 < m.on_site.length ∧ h.i1 < m.on_site.length) :
    hamilton m k = .ok (specHamilton m k) :=
  hamilton_ok m k hrg

theorem hamilton_eq_bloch_decomposition_spot :
    (∀ h ∈ mEx.hop, h.i0 < mEx.on_site.length ∧ h.i1 < mEx.on_site.length)
    ∧ hamilton mEx kZero = .ok (specHamilton mEx kZero) :=
  ⟨by decide, hamilton_eq_bloch_decomposition mEx kZero (by decide)⟩

/-- C9: for every model whose hopping terms are well formed (in-range
orbital indices; `G` is an integer 3-vector by the types), the rebuild
of the Hamiltonian cache succeeds: in particular the `G not found in
G_list` branch is never taken and `hamilton` returns a matrix. -/
theorem precompute_finds_every_G (m : Model) (k : Vec3R)
    (hrg : ∀ h ∈ m.hop, h.i0 < m.on_site.length ∧ h.i1 < m.on_site.length) :
    ∃ H, hamilton m k = .ok H :=
  ⟨specHamilton m k, hamilton_ok m k hrg⟩

theorem precompute_finds_every_G_spot :
    (∀ h ∈ mEx.hop, h.i0 < mEx.on_site.length ∧ h.i1 < mEx.on_site.length)
    ∧ ∃ H, hamilton mEx kZero = .ok H :=
  ⟨by decide, precompute_finds_every_G mEx kZero (by decide)⟩

/-- C10: `hamilton(k)` does not depend on the orbital positions: models
constructed with the same `on_site`, `hop`, `occ`, `add_cc` and `uc` but
different `pos` yield the same matrix at every k. -/
theorem hamilton_independent_of_pos (os : List ℝ) (hp : List Hop)
    (pos1 pos2 : Option (List Vec3R)) (occ : Option ℤ) (cc : Bool)
    (uc : Option Mat3) (m1 m2 : Model) (k : Vec3R)
    (hmk1 : mkModel os hp pos1 occ cc uc = .ok m1)
    (hmk2 : mkModel os hp pos2 occ cc uc = .ok m2) :
    hamilton m1 k = hamilton m2 k := by
  obtain ⟨ha1, hb1⟩ := mkModel_fields os hp pos1 occ cc uc m1 hmk1
  obtain ⟨ha2, hb2⟩ := mkModel_fields os hp pos2 occ cc uc m2 hmk2
  unfold hamilton
  rw [ha1, hb1, ha2, hb2]

theorem hamilton_independent_of_pos_spot :
    mkModel [0, 0] hpI (some pA) none true none = .ok mA
    ∧ mkModel [0, 0] hpI (some pB) none true none = .ok mB
    ∧ hamilton mA kZero = hamilton mB kZero := by
  have h1 : mkModel [0, 0] hpI (some pA) none true none = .ok mA := rfl
  have h2 : mkModel [0, 0] hpI (some pB) none true none = .ok mB := rfl
  exact ⟨h1, h2,
    hamilton_independent_of_pos [0, 0] hpI (some pA) (some pB) none true none
      mA mB kZero h1 h2⟩

/-- C4: a model constructed with `add_cc=True` stores, for every
supplied hopping term, its Hermitian conjugate `(i1, i0, -G, conj t)`
appended exactly once, and (for in-range indices) `hamilton(k)` equals
its own conjugate transpose at every real k. -/
theorem add_cc_hermitian (os : List ℝ) (hp : List Hop)
    (pos : Option (List Vec3R)) (occ : Option ℤ) (uc : Option Mat3)
    (m : Model) (k : Vec3R)
    (hmk : mkModel os hp pos occ true uc = .ok m)
    (hrg : ∀ h ∈ hp, h.i0 < os.length ∧ h.i1 < os.length) :
    m.hop = hp ++ hp.map ccHop
    ∧ ∃ H, hamilton m k = .ok H ∧ ∀ i j, H i j = (starRingEnd ℂ) (H j i) := by
  obtain ⟨hos, hhop⟩ := mkModel_fields os hp pos occ true uc m hmk
  rw [if_pos rfl] at hhop
  have hrg2 : ∀ h ∈ m.hop, h.i0 < m.on_site.length ∧ h.i1 < m.on_site.length := by
    rw [hos, hhop]
    intro h hh
    rcases List.mem_append.mp hh with hh | hh
    · exact hrg h hh
    · rcases List.mem_map.mp hh with ⟨g, hg, rfl⟩
      exact ⟨(hrg g hg).2, (hrg g hg).1⟩
  refine ⟨hhop, _, hamilton_flat m k hrg2, fun i j => ?_⟩
  simp only [map_add]
  rw [conj_diag]
  congr 1
  rw [hhop]
  exact (flat_hermitian hp k i j).symm

theorem add_cc_hermitian_spot :
    mkModel [0, 0] hpI none none true none = .ok mI
    ∧ (∀ h ∈ hpI, h.i0 < ([(0 : ℝ), 0]).length ∧ h.i1 < ([(0 : ℝ), 0]).length)
    ∧ mI.hop = hpI ++ hpI.map ccHop
    ∧ ∃ H, hamilton mI kZero = .ok H ∧ ∀ i j, H i j = (starRingEnd ℂ) (H j i) := by
  have h1 : mkModel [0, 0] hpI none none true none = .ok mI := rfl
  have h2 : ∀ h ∈ hpI, h.i0 < ([(0 : ℝ), 0]).length ∧ h.i1 < ([(0 : ℝ), 0]).length := by
    decide
  obtain ⟨ha, hb⟩ := add_cc_hermitian [0, 0] hpI none none none mI kZero h1 h2
  exact ⟨h1, h2, ha, hb⟩

/-! ### Supercell counting -/

lemma length_flatMap_const {α β : Type} (l : List α) (f : α → List β) (n : ℕ)
    (hc : ∀ a ∈ l, (f a).length = n) : (l.flatMap f).length = l.length * n := by
  induction l with
  | nil => simp
  | cons a t ih =>
      rw [List.flatMap_cons, List.length_append, hc a (List.mem_cons_self a t),
          ih fun x hx => hc x (List.mem_cons_of_mem a hx), List.length_cons]
      ring

lemma cells_length (d : ℕ × ℕ × ℕ) : (cells d).length = d.1 * d.2.1 * d.2.2 := by
  unfold cells
  rw [length_flatMap_const _ _ (d.2.1 * d.2.2) fun a _ => ?inner, List.length_range,
      mul_assoc]
  case inner =>
    rw [length_flatMap_const _ _ d.2.2 fun b _ => ?inner2, List.length_range]
    case inner2 => rw [List.length_map, List.length_range]

/-- C5: `supercell(dim)` has `N * dim.x * dim.y * dim.z` orbitals (both
the on-site list and the position list) and occupation
`(dim.x + dim.y + dim.z) * occ`, the literal `sum(dim) * occ` of the
source. -/
theorem supercell_size_occupation (m : Model) (dim : ℕ × ℕ × ℕ)
    (per : Bool × Bool × Bool) (pass : Option Pass)
    (h1 : 0 < dim.1) (h2 : 0 < dim.2.1) (h3 : 0 < dim.2.2)
    (hlen : m.pos.length = m.on_site.length) :
    (supercell m dim per pass).on_site.length
        = m.on_site.length * (dim.1 * dim.2.1 * dim.2.2)
    ∧ (supercell m dim per pass).pos.length
        = m.on_site.length * (dim.1 * dim.2.1 * dim.2.2)
    ∧ (supercell m dim per pass).occ
        = ((dim.1 : ℤ) + (dim.2.1 : ℤ) + (dim.2.2 : ℤ)) * m.occ := by
  refine ⟨?_, ?_, rfl⟩
  · show ((cells dim).flatMap fun c =>
        m.on_site.mapIdx fun o e => e + passTerm pass c dim o).length = _
    rw [length_flatMap_const _ _ m.on_site.length fun c _ => List.length_mapIdx ..,
        cells_length, mul_comm]
  · show ((cells dim).flatMap fun c => m.pos.map fun p =>
        ((c.1 : ℝ) / (dim.1 : ℝ) + p.1 / (dim.1 : ℝ),
         (c.2.1 : ℝ) / (dim.2.1 : ℝ) + p.2.1 / (dim.2.1 : ℝ),
         (c.2.2 : ℝ) / (dim.2.2 : ℝ) + p.2.2 / (dim.2.2 : ℝ))).length = _
    rw [length_flatMap_const _ _ m.on_site.length fun c _ => by
          rw [List.length_map, hlen],
        cells_length, mul_comm]

theorem supercell_size_occupation_spot :
    ((0 : ℕ) < 1 ∧ mEx.pos.length = mEx.on_site.length)
    ∧ (supercell mEx (1, 1, 1) (true, true, true) none).on_site.length
        = mEx.on_site.length * (1 * 1 * 1)
    ∧ (supercell mEx (1, 1, 1) (true, true, true) none).pos.length
        = mEx.on_site.length * (1 * 1 * 1)
    ∧ (supercell mEx (1, 1, 1) (true, true, true) none).occ
        = (((1 : ℕ) : ℤ) + ((1 : ℕ) : ℤ) + ((1 : ℕ) : ℤ)) * mEx.occ :=
  ⟨⟨by decide, by decide⟩,
   supercell_size_occupation mEx (1, 1, 1) (true, true, true) none
     (by decide) (by decide) (by decide) (by decide)⟩

/-- C6: `trs()` concatenates the on-site and position lists with
themselves (so the orbital count doubles), doubles the occupation, and
its hopping list is the original list followed by the mirrored terms
`(i1 + N, i0 + N, -G, t)` with the amplitude unchanged; nothing else is
added (the construction uses `add_cc=False`). -/
theorem trs_structure (m : Model) :
    (trs m).on_site = m.on_site ++ m.on_site
    ∧ (trs m).pos = m.pos ++ m.pos
    ∧ (trs m).occ = m.occ * 2
    ∧ (trs m).on_site.length = 2 * m.on_site.length
    ∧ (trs m).hop = m.hop ++ m.hop.map fun h =>
        ⟨h.i1 + m.on_site.length, h.i0 + m.on_site.length, negG h.G, h.t⟩ := by
  refine ⟨rfl, rfl, rfl, ?_, rfl⟩
  show (m.on_site ++ m.on_site).length = 2 * m.on_site.length
  rw [List.length_append]
  ring

/-- C7: `change_uc(uc)` fails, reporting the actual determinant, exactly
when `det(uc)` is not 1; when the determinant is exactly 1 it returns a
new model. -/
theorem change_uc_det_check (m : Model) (uc : Mat3)
    (hrg : ∀ h ∈ m.hop, h.i0 < m.pos.length ∧ h.i1 < m.pos.length) :
    (change_uc m uc = .error (det3 uc) ↔ det3 uc ≠ 1)
    ∧ (det3 uc = 1 → ∃ m2, change_uc m uc = .ok m2) := by
  unfold change_uc
  by_cases hdet : det3 uc = 1
  · rw [if_neg (not_not_intro hdet)]
    refine ⟨⟨fun hcontra => ?_, fun hne => absurd hdet hne⟩, fun _ => ⟨_, rfl⟩⟩
    exact Except.noConfusion hcontra
  · rw [if_pos hdet]
    exact ⟨⟨fun _ => hdet, fun _ => rfl⟩, fun hh => absurd hh hdet⟩

theorem change_uc_det_check_spot :
    (∀ h ∈ mEx.hop, h.i0 < mEx.pos.length ∧ h.i1 < mEx.pos.length)
    ∧ (change_uc mEx idMat3 = .error (det3 idMat3) ↔ det3 idMat3 ≠ 1)
    ∧ (det3 idMat3 = 1 → ∃ m2, change_uc mEx idMat3 = .ok m2) := by
  obtain ⟨ha, hb⟩ := change_uc_det_check mEx idMat3 (by decide)
  exact ⟨by decide, ha, hb⟩

/-! ### Phase evaluations and change_uc helpers -/

lemma gdot_zero (k : Vec3R) : gdot (0, 0, 0) k = 0 := by
  unfold gdot
  push_cast
  ring

lemma phase_G_zero (k : Vec3R) : phase (0, 0, 0) k = 1 := by
  unfold phase
  rw [gdot_zero]
  simp

lemma phase_one_half : phase (1, 0, 0) kHalf = -1 := by
  unfold phase kHalf
  have hg : gdot (1, 0, 0) ((1 / 2 : ℝ), (0 : ℝ), (0 : ℝ)) = 1 / 2 := by
    unfold gdot
    push_cast
    ring
  rw [hg]
  have harg : (2 : ℂ) * (Real.pi : ℂ) * Complex.I * (((1 / 2 : ℝ) : ℝ) : ℂ)
      = (Real.pi : ℂ) * Complex.I := by
    push_cast
    ring
  rw [harg, Complex.exp_pi_mul_I]

lemma solve3_idMat3 (p : Vec3R) : solve3 idMat3 p = p := by
  obtain ⟨x, y, z⟩ := p
  unfold solve3 idMat3 det3
  simp only [Prod.mk.injEq]
  norm_num

lemma getD_map_const {α : Type} (l : List α) (c : G3) :
    ∀ i : ℕ, (l.map fun _ => c).getD i c = c := by
  induction l with
  | nil => intro i; rfl
  | cons a t ih =>
      intro i
      cases i with
      | zero => rfl
      | succ n => exact ih n

lemma addG_sub_zero (G : G3) : addG G (subG (0, 0, 0) (0, 0, 0)) = G := by
  obtain ⟨a, b, c⟩ := G
  unfold addG subG
  simp

lemma change_uc_idMat3 (m : Model) :
    change_uc m idMat3 = .ok
      { on_site := m.on_site
      , pos := (m.pos.map fun p => solve3 idMat3 p).map fractV
      , hop := m.hop.map fun h =>
          ⟨h.i0, h.i1,
           addG h.G (subG
             (((m.pos.map fun p => solve3 idMat3 p).map floorV).getD h.i1 (0, 0, 0))
             (((m.pos.map fun p => solve3 idMat3 p).map floorV).getD h.i0 (0, 0, 0))),
           h.t⟩
      , occ := m.occ
      , uc := m.uc.map fun u => mul3 u idMat3 } := by
  have hdet : det3 idMat3 = 1 := by norm_num [det3, idMat3]
  unfold change_uc
  rw [if_neg (not_not_intro hdet)]

/-- C8 (amended): `change_uc` with the identity matrix returns a model
whose `hamilton(k)` is identical to the original at every k, provided
every stored orbital position component lies in `[0, 1)` (otherwise the
floor offsets shift the hopping `G` vectors, see the counterexample). -/
theorem change_uc_identity_in_range (m : Model)
    (hpos : ∀ p ∈ m.pos, (0 ≤ p.1 ∧ p.1 < 1) ∧ (0 ≤ p.2.1 ∧ p.2.1 < 1)
      ∧ (0 ≤ p.2.2 ∧ p.2.2 < 1)) :
    ∃ m2, change_uc m idMat3 = .ok m2 ∧ ∀ k, hamilton m2 k = hamilton m k := by
  have hoffs : (m.pos.map fun p => solve3 idMat3 p).map floorV
      = m.pos.map fun _ => ((0, 0, 0) : G3) := by
    rw [List.map_map]
    refine List.map_congr_left fun p hp => ?_
    show floorV (solve3 idMat3 p) = (0, 0, 0)
    rw [solve3_idMat3]
    obtain ⟨⟨h1a, h1b⟩, ⟨h2a, h2b⟩, h3a, h3b⟩ := hpos p hp
    unfold floorV
    rw [Int.floor_eq_zero_iff.mpr ⟨h1a, h1b⟩, Int.floor_eq_zero_iff.mpr ⟨h2a, h2b⟩,
        Int.floor_eq_zero_iff.mpr ⟨h3a, h3b⟩]
  have hhop : (m.hop.map fun h =>
      (⟨h.i0, h.i1,
        addG h.G (subG
          (((m.pos.map fun p => solve3 idMat3 p).map floorV).getD h.i1 (0, 0, 0))
          (((m.pos.map fun p => solve3 idMat3 p).map floorV).getD h.i0 (0, 0, 0))),
        h.t⟩ : Hop)) = m.hop := by
    rw [hoffs]
    simp only [getD_map_const, addG_sub_zero]
    exact List.map_id m.hop
  refine ⟨_, change_uc_idMat3 m, fun k => ?_⟩
  unfold hamilton
  show hamiltonCore m.on_site (m.hop.map fun h =>
      (⟨h.i0, h.i1,
        addG h.G (subG
          (((m.pos.map fun p => solve3 idMat3 p).map floorV).getD h.i1 (0, 0, 0))
          (((m.pos.map fun p => solve3 idMat3 p).map floorV).getD h.i0 (0, 0, 0))),
        h.t⟩ : Hop)) k = hamiltonCore m.on_site m.hop k
  rw [hhop]

theorem change_uc_identity_in_range_spot :
    (∀ p ∈ mEx.pos, (0 ≤ p.1 ∧ p.1 < 1) ∧ (0 ≤ p.2.1 ∧ p.2.1 < 1)
      ∧ (0 ≤ p.2.2 ∧ p.2.2 < 1))
    ∧ ∃ m2, change_uc mEx idMat3 = .ok m2 ∧ ∀ k, hamilton m2 k = hamilton mEx k := by
  have hposx : ∀ p ∈ mEx.pos, (0 ≤ p.1 ∧ p.1 < 1) ∧ (0 ≤ p.2.1 ∧ p.2.1 < 1)
      ∧ (0 ≤ p.2.2 ∧ p.2.2 < 1) := by
    intro p hp
    simp only [mEx, List.mem_cons, List.not_mem_nil, or_false] at hp
    rcases hp with rfl | rfl <;> norm_num
  exact ⟨hposx, change_uc_identity_in_range mEx hposx⟩

/-- Counterexample for C8 as stated: on a model whose second orbital sits
at reduced position `3/2`, `change_uc` with the identity matrix returns a
model whose Hamiltonian differs from the original at `k = (1/2, 0, 0)`. -/
theorem change_uc_identity_counterexample :
    change_uc mC8 idMat3 = .ok mC8b
    ∧ (hamilton mC8b kHalf).map (fun H => H 0 1) = .ok (-1)
    ∧ (hamilton mC8 kHalf).map (fun H => H 0 1) = .ok 1
    ∧ (-1 : ℂ) ≠ 1 := by
  have f0 : floorV ((0 : ℝ), (0 : ℝ), (0 : ℝ)) = (0, 0, 0) := by
    unfold floorV
    norm_num
  have hfl : (⌊(3 / 2 : ℝ)⌋ : ℤ) = 1 := by
    rw [Int.floor_eq_iff]
    constructor <;> norm_num
  have f32 : floorV ((3 / 2 : ℝ), (0 : ℝ), (0 : ℝ)) = (1, 0, 0) := by
    unfold floorV
    rw [hfl]
    norm_num
  have g0 : fractV ((0 : ℝ), (0 : ℝ), (0 : ℝ)) = ((0 : ℝ), (0 : ℝ), (0 : ℝ)) := by
    unfold fractV
    norm_num
  have g32 : fractV ((3 / 2 : ℝ), (0 : ℝ), (0 : ℝ)) = ((1 / 2 : ℝ), (0 : ℝ), (0 : ℝ)) := by
    unfold fractV
    unfold Int.fract
    rw [hfl]
    norm_num
  refine ⟨?_, ?_, ?_, by norm_num⟩
  · rw [change_uc_idMat3 mC8]
    refine congrArg Except.ok ?_
    simp only [mC8, mC8b, List.map_cons, List.map_nil, solve3_idMat3, f0, f32, g0, g32,
      List.getD_cons_zero, List.getD_cons_succ]
    have hG : addG (0, 0, 0) (subG (1, 0, 0) (0, 0, 0)) = ((1 : ℤ), (0 : ℤ), (0 : ℤ)) := by
      decide
    rw [hG]
    rfl
  · rw [hamilton_flat mC8b kHalf (by decide)]
    simp only [Except.map, mC8b, diagOf, hopEntry, List.map_cons, List.map_nil,
      List.sum_cons, List.sum_nil, phase_one_half]
    norm_num
  · rw [hamilton_flat mC8 kHalf (by decide)]
    simp only [Except.map, mC8, diagOf, hopEntry, List.map_cons, List.map_nil,
      List.sum_cons, List.sum_nil, phase_G_zero]
    norm_num

/-! ### Code-level divergences -/

/-- C1 (divergence witness): `add_hop` extends `_hop` in place, which
does not pass through `__setattr__`, so `_unchanged` stays `True` and a
later `hamilton` call serves the stale cache.  Concretely: after
`hamilton` is evaluated once on a model with no hoppings, adding the
on-site hopping `(0, 0, (0,0,0), 1)` and calling `hamilton([0,0,0])`
again yields entry `(0,0) = 0` from the stale cache, while the Bloch sum
rebuilt from the current hopping list yields entry `(0,0) = 1`. -/
theorem add_hop_stale_cache :
    ((hamiltonS (initState mC1) kZero).map fun r => r.2) = .ok sAF
    ∧ ((hamiltonS (addHopS sAF [hopC1]) kZero).map fun r => r.1 0 0) = .ok 0
    ∧ ((hamilton ⟨[0], [((0 : ℝ), 0, 0)], [hopC1], 0, none⟩ kZero).map
        fun H => H 0 0) = .ok 1
    ∧ (0 : ℂ) ≠ 1 := by
  refine ⟨rfl, ?_, ?_, by norm_num⟩
  · show Except.ok ((fun i j => diagOf [0] i j
        + (([] : List G3).map fun G => emptyParts G i j * phase G kZero).sum) 0 0)
      = Except.ok 0
    simp [diagOf]
  · rw [hamilton_flat ⟨[0], [((0 : ℝ), 0, 0)], [hopC1], 0, none⟩ kZero (by decide)]
    simp only [Except.map, hopC1, diagOf, hopEntry, List.map_cons, List.map_nil,
      List.sum_cons, List.sum_nil, phase_G_zero]
    norm_num

/-- C2 (divergence witness): `supercell` computes the new `G` with
`np.array(full / dim, dtype=int)` (truncation toward zero) but wraps the
destination with the floored `%`, so for the hopping `(0, 0, (-1,0,0), 1)`
and `dim = (2,1,1)` the term emitted from sub-unit cell `(0,0,0)` has
`new_G = (0,0,0)` and destination cell `(1,0,0)` (orbital index 1):
`new_G.x * dim.x + wrapped.x = 0*2 + 1 = 1`, while `uc0.x + G.x = -1`,
falsifying the quotient identity of the claim. -/
theorem supercell_wrap_quotient_mismatch :
    ((supercell mC2 (2, 1, 1) (true, true, true) none).hop.map
        fun h => (h.i0, h.i1, h.G))
      = [(0, 1, ((0 : ℤ), (0 : ℤ), (0 : ℤ))), (1, 0, ((0 : ℤ), (0 : ℤ), (0 : ℤ)))]
    ∧ ¬((0 : ℤ) * 2 + 1 = 0 + (-1)) :=
  ⟨by decide, by decide⟩

end Z2Pack
